import Mathlib

set_option maxHeartbeats 1000000

/-!
Verification development for the wpcsh shell (Torexto/wpcsh).

The Rust sources are shallowly embedded below:
* `tokenize` — `main.rs` `tokenize` (whitespace-splitting tokenizer with a
  double-quote flag and backslash escapes);
* `resolve_alias` — `main.rs` `Shell::resolve_alias` (iterated alias
  expansion with a seen-set and a 32-name ceiling);
* `libResolveAlias` — `lib.rs` `Shell::resolve_alias` (single substitution);
* path model, `normalize_path`, `change_directory` — `lib.rs`;
* `resolve_variable`, `add_variable`, `add_alias` — `lib.rs`;
* pipeline spawn/wait orchestration — `lib.rs` `execute`, `Node::Pipeline` arm;
* the flash lexer — `token/mod.rs`.

`HashMap<String, String>` is modelled as `String → Option String` (lookup is
application, insert is pointwise update), `HashSet<String>` as a `List String`
with membership, and OS-level state (working directory, file system, spawn
results) is passed explicitly.
-/

/-- The subset of `std::io::ErrorKind` that the shell uses. -/
inductive ErrorKind where
  | notFound
  | invalidInput
  | interrupted
  | other
deriving DecidableEq, Repr

/-- Map model for `HashMap<String, String>`. -/
def VarMap : Type := String → Option String

/-- `HashMap::insert`. -/
def insertVar (m : VarMap) (k v : String) : VarMap :=
  fun x => if x = k then some v else m x

/-- Loop body of `main.rs` `tokenize`: walks the characters keeping the
current word, the `in_quotes` flag and the accumulated tokens.  A `"` toggles
the flag, unquoted space and tab finish the current word, `\` copies the next
character verbatim, everything else extends the current word.  At the end an
open quote yields `Err(ErrorKind::InvalidInput)`, otherwise the pending word
is flushed. -/
def tokenizeGo : List Char → List Char → Bool → List (List Char) →
    Except ErrorKind (List String)
  | [], cur, inQ, acc =>
    if inQ then .error .invalidInput
    else .ok ((if cur.isEmpty then acc else acc ++ [cur]).map (fun w => String.mk w))
  | c :: cs, cur, inQ, acc =>
    if c = '"' then tokenizeGo cs cur (!inQ) acc
    else if (c = ' ' ∨ c = '\t') ∧ inQ = false then
      if cur.isEmpty then tokenizeGo cs cur inQ acc
      else tokenizeGo cs [] inQ (acc ++ [cur])
    else if c = '\\' then
      match cs with
      | [] =>
        -- a trailing backslash consumes nothing; the loop then ends
        if inQ then .error .invalidInput
        else .ok ((if cur.isEmpty then acc else acc ++ [cur]).map (fun w => String.mk w))
      | d :: ds => tokenizeGo ds (cur ++ [d]) inQ acc
    else tokenizeGo cs (cur ++ [c]) inQ acc

/-- `main.rs` `tokenize`. -/
def tokenize (input : String) : Except ErrorKind (List String) :=
  tokenizeGo input.toList [] false []

/-- The double-quote parity of an input: the value of `tokenize`'s
`in_quotes` flag after scanning the whole input (a backslash consumes the
following character, so an escaped `"` does not toggle). -/
def finalInQuotes : List Char → Bool → Bool
  | [], inQ => inQ
  | c :: cs, inQ =>
    if c = '"' then finalInQuotes cs (!inQ)
    else if c = '\\' then
      match cs with
      | [] => inQ
      | _ :: ds => finalInQuotes ds inQ
    else finalInQuotes cs inQ

/-- `str::split_whitespace`: whitespace-separated words, no empty words. -/
def splitWhitespaceGo : List Char → List Char → List String
  | [], cur => if cur.isEmpty then [] else [String.mk cur]
  | c :: cs, cur =>
    if c.isWhitespace then
      if cur.isEmpty then splitWhitespaceGo cs []
      else String.mk cur :: splitWhitespaceGo cs []
    else splitWhitespaceGo cs (cur ++ [c])

/-- `str::split_whitespace` on a `String`. -/
def splitWhitespace (s : String) : List String :=
  splitWhitespaceGo s.toList []

/-- `lib.rs` `Shell::resolve_alias`: a single alias substitution.  The first
word is looked up once; the replacement is split on whitespace into a new
first word plus words prepended ahead of the already-accumulated arguments.
No repetition, no seen-set, no ceiling. -/
def libResolveAlias (aliases : VarMap) (cmd : String) (args : List String) :
    String × List String :=
  let aliasText := (aliases cmd).getD cmd
  match splitWhitespace aliasText with
  | [] => (cmd, args)
  | n :: restWords => (n, restWords ++ args)

/-- Loop of `main.rs` `Shell::resolve_alias`.  While the current first word
has an alias: insert it into the seen-set, stop if it was already seen or
the seen-set now holds more than 32 names, otherwise tokenize the
replacement and prepend it ahead of the remaining words (a replacement that
fails to tokenize leaves the words unchanged, and the loop then stops at the
repeated name).  `fuel` is an upper bound on loop iterations; 33 always
suffices (`resolveAliasAux_fuel`). -/
def resolveAliasAux (aliases : VarMap) : List String → List String → Nat → List String
  | _, tokens, 0 => tokens
  | seen, tokens, fuel + 1 =>
    match tokens with
    | [] => []
    | t0 :: rest =>
      match aliases t0 with
      | none => t0 :: rest
      | some aliasText =>
        let fresh := !(seen.contains t0)
        let seen' := if fresh then t0 :: seen else seen
        if fresh = false ∨ 32 < seen'.length then t0 :: rest
        else
          match tokenize aliasText with
          | .error _ => resolveAliasAux aliases seen' (t0 :: rest) fuel
          | .ok aliasTokens => resolveAliasAux aliases seen' (aliasTokens ++ rest) fuel

/-- `main.rs` `Shell::resolve_alias`, entered with the candidate first word
and an empty seen-set.  Fuel 33 covers every run (`resolveAliasAux_fuel`). -/
def resolve_alias (aliases : VarMap) (command : String) : List String :=
  resolveAliasAux aliases [] [command] 33

/-- The mutually-referential alias table `ll -> ls -la`, `ls -> ll` from the
spec's cycle example. -/
def cycleAliases : VarMap :=
  fun s => if s = "ll" then some "ls -la" else if s = "ls" then some "ll" else none

/-- A two-step alias chain `a -> b`, `b -> c` with no cycle. -/
def chainAliases : VarMap :=
  fun s => if s = "a" then some "b" else if s = "b" then some "c" else none

/-- `std::path::Component` (Unix flavour: no `Prefix` component). -/
inductive Component where
  | rootDir
  | curDir
  | parentDir
  | normal (s : String)
deriving DecidableEq, BEq, Repr

/-- A `PathBuf` as its list of components. -/
def FsPath : Type := List Component

instance : BEq FsPath := inferInstanceAs (BEq (List Component))
instance : DecidableEq FsPath := inferInstanceAs (DecidableEq (List Component))
instance : Append FsPath := inferInstanceAs (Append (List Component))
instance : Membership Component FsPath := inferInstanceAs (Membership Component (List Component))

/-- One textual path segment as a component (`""` is skipped, `"."` is
`CurDir`, `".."` is `ParentDir`). -/
def parseComponent (s : String) : Option Component :=
  if s = "" then none
  else if s = "." then some .curDir
  else if s = ".." then some .parentDir
  else some (.normal s)

/-- `str::split` on `/` over the characters (keeps empty segments, which
`parseComponent` then drops). -/
def splitOnSlash : List Char → List Char → List String
  | [], cur => [String.mk cur]
  | c :: cs, cur =>
    if c = '/' then String.mk cur :: splitOnSlash cs []
    else splitOnSlash cs (cur ++ [c])

/-- `str::starts_with(c)`. -/
def startsWithChar (s : String) (c : Char) : Bool :=
  match s.toList with
  | x :: _ => x = c
  | [] => false

/-- The components of a path string: a leading `/` contributes `RootDir`,
the rest is split on `/`. -/
def parsePath (s : String) : FsPath :=
  let comps := (splitOnSlash s.toList []).filterMap parseComponent
  if startsWithChar s '/' then Component.rootDir :: comps else comps

/-- `PathBuf::join`: joining an absolute path replaces the receiver
entirely; joining a relative path appends its components. -/
def pathJoin (p q : FsPath) : FsPath :=
  match q with
  | Component.rootDir :: _ => q
  | _ => List.append p q

/-- `PathBuf::pop`: truncate to the parent; the root (and the empty path)
have no parent and stay unchanged. -/
def pathPop (p : FsPath) : FsPath :=
  match p with
  | [] => []
  | [Component.rootDir] => [Component.rootDir]
  | _ => p.dropLast

/-- Loop of `lib.rs`/`main.rs` `normalize_path`: `ParentDir` pops the result
built so far, `CurDir` is skipped, every other component is pushed. -/
def normalizeGo (acc : FsPath) : FsPath → FsPath
  | [] => acc
  | c :: cs =>
    match c with
    | Component.parentDir => normalizeGo (pathPop acc) cs
    | Component.curDir => normalizeGo acc cs
    | other => normalizeGo (List.append acc [other]) cs

/-- `normalize_path` (identical in `lib.rs` and `main.rs`): purely lexical
removal of `.` and `..` components, no filesystem access. -/
def normalize_path (p : FsPath) : FsPath := normalizeGo [] p

/-- Rendering of one component for `FsPath::to_string_lossy`. -/
def componentString : Component → String
  | .rootDir => "/"
  | .curDir => "."
  | .parentDir => ".."
  | .normal s => s

/-- Segments joined with `/` separators. -/
def joinSlash : List String → String
  | [] => ""
  | [s] => s
  | s :: rest => s ++ "/" ++ joinSlash rest

/-- `Path::to_string_lossy` on the component model. -/
def pathToString (p : FsPath) : String :=
  match p with
  | Component.rootDir :: rest => "/" ++ joinSlash (rest.map componentString)
  | _ => joinSlash (p.map componentString)

/-- `lib.rs` `struct Shell`.  `ExitStatus` is modelled by the integer the
shell stores and reads back (`ExitStatus::from_raw(n)` / `.code()`). -/
structure ShellSt where
  home_dir : FsPath
  current_dir : FsPath
  vars : VarMap
  aliases : VarMap
  exit_status : Int

/-- The OS-side process state relevant to the shell: the actual working
directory of the process. -/
structure OsSt where
  cwd : FsPath

/-- `FsPath::is_dir` against an explicit file system: the set of existing
directories. -/
def is_dir (fs : List FsPath) (p : FsPath) : Bool := fs.contains p

/-- `std::env::set_current_dir`: succeeds (updating the process working
directory) exactly when the target is an existing directory. -/
def set_current_dir (fs : List FsPath) (os : OsSt) (p : FsPath) : OsSt × Bool :=
  if fs.contains p then ({ cwd := p }, true) else (os, false)

/-- The target directory computed by `lib.rs` `change_directory`: no
argument targets the home directory; one argument starting with `~` is
stripped of the `~` and joined onto the home directory (`home_dir.join(&path[1..])`);
any other argument is joined onto the current directory; the result is then
normalized lexically. -/
def cdTarget (sh : ShellSt) (args : List String) : FsPath :=
  let new_dir :=
    match args.head? with
    | some path =>
      if startsWithChar path '~' then pathJoin sh.home_dir (parsePath (path.drop 1))
      else pathJoin sh.current_dir (parsePath path)
    | none => sh.home_dir
  normalize_path new_dir

/-- `lib.rs` `Shell::change_directory`: more than one argument is
`InvalidInput` with exit status 1; otherwise the target is computed
(`cdTarget`), the OS working directory is changed (failure is
`InvalidInput` with the shell state untouched), and on success the new
current directory, the `PWD` variable and exit status 0 are committed
(`is_dir` failing after a successful OS change is status 1 and
`InvalidInput`). -/
def change_directory (fs : List FsPath) (sh : ShellSt) (os : OsSt) (args : List String) :
    ShellSt × OsSt × Except ErrorKind Unit :=
  if 1 < args.length then ({ sh with exit_status := 1 }, os, .error .invalidInput)
  else
    let new_dir := cdTarget sh args
    let r := set_current_dir fs os new_dir
    if r.2 = false then (sh, r.1, .error .invalidInput)
    else if is_dir fs new_dir then
      ({ sh with current_dir := new_dir,
                 vars := insertVar sh.vars "PWD" (pathToString new_dir),
                 exit_status := 0 }, r.1, .ok ())
    else ({ sh with exit_status := 1 }, r.1, .error .invalidInput)

/-- `str::replace(arg, "~", home)`: every occurrence of `~` is replaced. -/
def replaceTilde (home : String) : List Char → List Char
  | [] => []
  | c :: cs =>
    if c = '~' then home.toList ++ replaceTilde home cs
    else c :: replaceTilde home cs

/-- `str::strip_prefix('$')` on the characters. -/
def stripDollar (l : List Char) : Option (List Char) :=
  match l with
  | c :: cs => if c = '$' then some cs else none
  | [] => none

/-- `lib.rs` `Shell::resolve_variable`: first all `~` are replaced by the
home directory, then a `$`-prefixed argument is resolved — `$?` to the last
exit status, a stored name to its value, an absent name to the argument
text itself (after `~` replacement). -/
def resolve_variable (sh : ShellSt) (arg : String) : String :=
  let argR := String.mk (replaceTilde (pathToString sh.home_dir) arg.toList)
  match stripDollar argR.toList with
  | some nameChars =>
    let name := String.mk nameChars
    if name = "?" then toString sh.exit_status
    else
      match sh.vars name with
      | some v => v
      | none => argR
  | none => argR

/-- `str::split_once('=')`: split at the first `=`, `none` when absent. -/
def splitOnceChar (c : Char) : List Char → Option (List Char × List Char)
  | [] => none
  | x :: xs =>
    if x = c then some ([], xs)
    else
      match splitOnceChar c xs with
      | none => none
      | some (pre, post) => some (x :: pre, post)

/-- `str::trim_matches('"')`: strip every leading and trailing `"`. -/
def trimQuotes (s : String) : String :=
  String.mk (((s.toList.dropWhile (fun c => c = '"')).reverse.dropWhile
    (fun c => c = '"')).reverse)

/-- `lib.rs` `Shell::add_variable`: on `key=value` insert the trimmed key
with the quote-stripped value and set exit status 0; otherwise only set
exit status 1. -/
def add_variable (sh : ShellSt) (text : String) : ShellSt :=
  match splitOnceChar '=' text.toList with
  | some (key, val) =>
    { sh with
      vars := insertVar sh.vars (String.mk key).trim (trimQuotes (String.mk val)),
      exit_status := 0 }
  | none => { sh with exit_status := 1 }

/-- `lib.rs` `Shell::add_alias`: same as `add_variable` but on the alias
map. -/
def add_alias (sh : ShellSt) (text : String) : ShellSt :=
  match splitOnceChar '=' text.toList with
  | some (key, val) =>
    { sh with
      aliases := insertVar sh.aliases (String.mk key).trim (trimQuotes (String.mk val)),
      exit_status := 0 }
  | none => { sh with exit_status := 1 }

/-- Observable scheduling events of the `Node::Pipeline` arm of
`lib.rs` `execute`: spawning stage `i`, waiting on stage `i`. -/
inductive PipeEvent where
  | spawnEv (i : Nat)
  | waitEv (i : Nat)
deriving DecidableEq, Repr

/-- First loop of the `Pipeline` arm: every stage is spawned (pushed onto
`childrens`) in order; nothing is waited on. A stage is represented by the
exit code its eventual `wait` will report (`none`: no code available). -/
def spawnLoop : List (Option Int) → Nat → List PipeEvent
  | [], _ => []
  | _ :: cs, i => PipeEvent.spawnEv i :: spawnLoop cs (i + 1)

/-- Second loop of the `Pipeline` arm: wait on every child in spawn order;
`last_code` (initially 0) is overwritten by each stage that reports a
code. -/
def waitLoop : List (Option Int) → Nat → Int → List PipeEvent × Int
  | [], _, last => ([], last)
  | c :: cs, i, last =>
    let last' := match c with | some code => code | none => last
    let r := waitLoop cs (i + 1) last'
    (PipeEvent.waitEv i :: r.1, r.2)

/-- The `Node::Pipeline` arm of `lib.rs` `execute`: spawn every stage, then
wait on every stage, reporting the accumulated `last_code`. -/
def runPipeline (stages : List (Option Int)) : List PipeEvent × Int :=
  let spawned := spawnLoop stages 0
  let waited := waitLoop stages 0 0
  (spawned ++ waited.1, waited.2)

/-- How one execution step of the shell process ends: a completed command
with an exit code, a recoverable error returned to the caller, or a panic
(`expect`) aborting the shell process. -/
inductive ExecOutcome where
  | completed (code : Int)
  | errored (k : ErrorKind)
  | panicked (msg : String)
deriving DecidableEq, Repr

/-- Non-builtin spawn in the `Node::Command` arm of `lib.rs` `execute`:
`command.spawn().and_then(|c| c.wait()).expect("Failed to spawn child process")`
followed by `.code().expect("Failed to get exit code")`.  The argument is
the OS result of spawning and waiting (`.error`: the spawn failed;
`.ok none`: no exit code). -/
def libSpawnExternal (spawnWait : Except ErrorKind (Option Int)) : ExecOutcome :=
  match spawnWait with
  | .error _ => .panicked "Failed to spawn child process"
  | .ok none => .panicked "Failed to get exit code"
  | .ok (some code) => .completed code

/-- `main.rs` `Shell::execute_external_command`: a successful status is
stored in `exit_status` and `Ok(())` returned; a spawn error is returned to
the caller as `Err(err.kind())` with the shell state untouched. -/
def execute_external_command (sh : ShellSt) (spawnStatus : Except ErrorKind Int) :
    ShellSt × Except ErrorKind Unit :=
  match spawnStatus with
  | .ok st => ({ sh with exit_status := st }, .ok ())
  | .error k => (sh, .error k)

/-- `token/mod.rs` `Token`. -/
inductive Tok where
  | word (s : String)
  | newline
  | semicolon
  | pipe
  | andIf
  | orIf
  | background
  | redirectIn
  | redirectOut
  | redirectAppend
  | redirectInOut
  | heredoc
  | singleQuoted (s : String)
  | doubleQuoted (ts : List Tok)
  | var (s : String)
  | varBraced (s : String)
  | lparen
  | rparen
  | lbrace
  | rbrace
  | eof
deriving Repr

/-- A character allowed in an unbraced `$name`: alphanumeric or `_`. -/
def isVarChar (c : Char) : Bool := c.isAlphanum || c = '_'

/-- `token/mod.rs` `Lexer::read_variable` (the `$` is already consumed):
`${...}` reads up to and including `}` into a `VariableBraced` token;
otherwise the longest alphanumeric/underscore run becomes a `Variable`
token.  The lexer state is the list of remaining characters; the second
result is the rest of the input. -/
def read_variable (cs : List Char) : Tok × List Char :=
  if cs.head? = some '{' then
    (Tok.varBraced (String.mk (cs.tail.takeWhile (fun c => !(c == '}')))),
     (cs.tail.dropWhile (fun c => !(c == '}'))).drop 1)
  else
    (Tok.var (String.mk (cs.takeWhile isVarChar)), cs.dropWhile isVarChar)

/-- `token/mod.rs` `Lexer::read_single_quoted` (the opening `'` is already
consumed): everything up to the closing quote — or to the end of input when
the quote is unterminated — becomes the literal content. -/
def read_single_quoted (cs : List Char) : String × List Char :=
  (String.mk (cs.takeWhile (fun c => !(c == '\''))),
   (cs.dropWhile (fun c => !(c == '\''))).drop 1)

/-- Loop of `token/mod.rs` `Lexer::read_double_quoted` with the pending
literal `buf` and the accumulated tokens: `"` (or end of input) flushes
`buf` and stops, `$` flushes `buf` and embeds the token of
`read_variable`, `\` copies the next character into `buf`. -/
def rdqGo : List Char → List Char → List Tok → List Tok × List Char
  | [], buf, toks =>
    (if buf.isEmpty then toks else toks ++ [Tok.word (String.mk buf)], [])
  | c :: cs, buf, toks =>
    if c = '"' then
      (if buf.isEmpty then toks else toks ++ [Tok.word (String.mk buf)], cs)
    else if c = '$' then
      let toks' := if buf.isEmpty then toks else toks ++ [Tok.word (String.mk buf)]
      let v := read_variable cs
      rdqGo v.2 [] (toks' ++ [v.1])
    else if c = '\\' then
      match cs with
      | [] => rdqGo [] buf toks
      | d :: ds => rdqGo ds (buf ++ [d]) toks
    else rdqGo cs (buf ++ [c]) toks
termination_by chars _ _ => chars.length
decreasing_by
  · have h : (read_variable cs).2.length ≤ cs.length := by
      unfold read_variable
      split
      · have h1 := (List.dropWhile_sublist (p := fun c => !(c == '}')) (l := cs.tail)).length_le
        have h2 : cs.tail.length ≤ cs.length := by cases cs <;> simp
        simp only [List.length_drop]
        omega
      · exact (List.dropWhile_sublist _).length_le
    simp only [List.length_cons]
    omega
  all_goals simp_arith

/-- `token/mod.rs` `Lexer::read_double_quoted` (the opening `"` is already
consumed). -/
def read_double_quoted (cs : List Char) : List Tok × List Char :=
  rdqGo cs [] []

/-- The characters that end a bare word in `token/mod.rs`
`Lexer::read_word`: whitespace or an operator-introducing character. -/
def isWordStop (c : Char) : Bool :=
  c.isWhitespace ||
    (c == '|' || c == '&' || c == ';' || c == '<' || c == '>' ||
     c == '(' || c == ')' || c == '{' || c == '}' ||
     c == '"' || c == '\'' || c == '$')

/-- `token/mod.rs` `Lexer::read_word`: the first character plus the longest
run of non-stop characters. -/
def read_word (first : Char) (cs : List Char) : Tok × List Char :=
  (Tok.word (String.mk (first :: cs.takeWhile (fun c => !(isWordStop c)))),
   cs.dropWhile (fun c => !(isWordStop c)))

/-- `token/mod.rs` `Lexer::skip_whitespace`: spaces and tabs. -/
def skip_whitespace (cs : List Char) : List Char :=
  cs.dropWhile (fun c => c == ' ' || c == '\t')

/-- `token/mod.rs` `Lexer::next_token`: one token from the remaining input,
with greedy two-character operators before one-character fallbacks. -/
def next_token (cs : List Char) : Tok × List Char :=
  match skip_whitespace cs with
  | [] => (Tok.eof, [])
  | c :: rest =>
    if c = '\n' then (Tok.newline, rest)
    else if c = ';' then (Tok.semicolon, rest)
    else if c = '&' then
      match rest with
      | '&' :: r => (Tok.andIf, r)
      | _ => (Tok.background, rest)
    else if c = '|' then
      match rest with
      | '|' :: r => (Tok.orIf, r)
      | _ => (Tok.pipe, rest)
    else if c = '<' then
      match rest with
      | '<' :: r => (Tok.heredoc, r)
      | '>' :: r => (Tok.redirectInOut, r)
      | _ => (Tok.redirectIn, rest)
    else if c = '>' then
      match rest with
      | '>' :: r => (Tok.redirectAppend, r)
      | _ => (Tok.redirectOut, rest)
    else if c = '(' then (Tok.lparen, rest)
    else if c = ')' then (Tok.rparen, rest)
    else if c = '{' then (Tok.lbrace, rest)
    else if c = '}' then (Tok.rbrace, rest)
    else if c = '\'' then
      let r := read_single_quoted rest
      (Tok.singleQuoted r.1, r.2)
    else if c = '"' then
      let r := read_double_quoted rest
      (Tok.doubleQuoted r.1, r.2)
    else if c = '$' then read_variable rest
    else read_word c rest

/-- The root directory as a path. -/
def rootPath : FsPath := [Component.rootDir]

/-- The path `/home/u`, used as a home directory in concrete runs. -/
def homeU : FsPath := [Component.rootDir, Component.normal "home", Component.normal "u"]

/-- The empty variable map. -/
def noVars : VarMap := fun _ => none

/-- A shell whose home and current directory are the root. -/
def shRoot : ShellSt :=
  { home_dir := rootPath, current_dir := rootPath, vars := noVars, aliases := noVars,
    exit_status := 0 }

/-- A shell living in `/home/u`. -/
def shHomeU : ShellSt :=
  { home_dir := homeU, current_dir := homeU, vars := noVars, aliases := noVars,
    exit_status := 0 }

/-- A shell with home directory `/h` and last exit status 7. -/
def shTilde : ShellSt :=
  { home_dir := [Component.rootDir, Component.normal "h"], current_dir := rootPath,
    vars := noVars, aliases := noVars, exit_status := 7 }

/-- `shTilde` with the variable `X` set to `val`. -/
def shVarX : ShellSt :=
  { shTilde with vars := fun s => if s = "X" then some "val" else none }

/-- A file system containing `/home/u` and `/home/u/x` (but not `/x`). -/
def fsHomeUX : List FsPath := [homeU, List.append homeU [Component.normal "x"]]

/-- OS state whose working directory is `/home/u`. -/
def osHomeU : OsSt := { cwd := homeU }

/-- OS state whose working directory is the root. -/
def osRoot : OsSt := { cwd := rootPath }

/-- One piece of a double-quoted span as the shell grammar sees it: a
literal stretch, an unbraced `$name` reference, or a braced `${name}`
reference. -/
inductive DqPiece where
  | lit (s : List Char)
  | ref (name : List Char)
  | refBraced (name : List Char)
deriving Repr

/-- The source text of a pieced span (without the closing quote): literals
verbatim, `$name` for an unbraced reference, `${name}` for a braced one. -/
def renderPieces : List DqPiece → List Char
  | [] => []
  | DqPiece.lit s :: rest => s ++ renderPieces rest
  | DqPiece.ref n :: rest => '$' :: (n ++ renderPieces rest)
  | DqPiece.refBraced n :: rest => '$' :: '{' :: (n ++ '}' :: renderPieces rest)

/-- The token list the claim predicts for a pieced span: a `Word` per
literal stretch, a `Variable` per `$name`, a `VariableBraced` per
`${name}`, in order. -/
def piecesToks : List DqPiece → List Tok
  | [] => []
  | DqPiece.lit s :: rest => Tok.word (String.mk s) :: piecesToks rest
  | DqPiece.ref n :: rest => Tok.var (String.mk n) :: piecesToks rest
  | DqPiece.refBraced n :: rest => Tok.varBraced (String.mk n) :: piecesToks rest

/-- A literal stretch: non-empty and free of the quote, dollar and
backslash characters the double-quote loop treats specially. -/
def litOk (s : List Char) : Bool :=
  !s.isEmpty && s.all (fun c => !(c == '"') && !(c == '$') && !(c == '\\'))

/-- An unbraced reference name: alphanumeric/underscore characters. -/
def refNameOk (n : List Char) : Bool := n.all isVarChar

/-- A braced reference name: anything up to the closing `\x7d`. -/
def bracedNameOk (n : List Char) : Bool := n.all (fun c => !(c == '}'))

/-- Maximality of literal stretches: the next piece is not a literal
(adjacent literals would merge into one `Word`). -/
def noLitHead : List DqPiece → Bool
  | DqPiece.lit _ :: _ => false
  | _ => true

/-- Maximality of an unbraced `$name`: the following character (the head
of the next literal; a following `$` or closing quote always qualifies)
must not extend the name, and for the empty name must not open a brace. -/
def refFollowOk (n : List Char) : List DqPiece → Bool
  | DqPiece.lit s :: _ =>
      s.head?.all (fun c => !(isVarChar c) && (!n.isEmpty || !(c == '{')))
  | _ => true

/-- A well-formed pieced span: literal stretches are non-empty, special-free
and maximal, reference names are of the right character classes, and each
unbraced reference is maximal. -/
def piecesOk : List DqPiece → Bool
  | [] => true
  | DqPiece.lit s :: rest => litOk s && noLitHead rest && piecesOk rest
  | DqPiece.ref n :: rest => refNameOk n && refFollowOk n rest && piecesOk rest
  | DqPiece.refBraced n :: rest => bracedNameOk n && piecesOk rest

/-- The token the pending literal buffer flushes to (nothing when empty). -/
def flushWord (buf : List Char) : List Tok :=
  if buf.isEmpty then [] else [Tok.word (String.mk buf)]

/-! ## Helper lemmas -/

theorem takeWhile_append_all {p : Char → Bool} :
    ∀ {xs ys : List Char}, (∀ x ∈ xs, p x = true) →
      (xs ++ ys).takeWhile p = xs ++ ys.takeWhile p := by
  intro xs
  induction xs with
  | nil => intro ys _; simp
  | cons a as ih =>
    intro ys h
    have ha : p a = true := h a (List.mem_cons_self a as)
    simp only [List.cons_append, List.takeWhile_cons, ha, if_true]
    rw [ih (fun x hx => h x (List.mem_cons_of_mem a hx))]

theorem dropWhile_append_all {p : Char → Bool} :
    ∀ {xs ys : List Char}, (∀ x ∈ xs, p x = true) →
      (xs ++ ys).dropWhile p = ys.dropWhile p := by
  intro xs
  induction xs with
  | nil => intro ys _; simp
  | cons a as ih =>
    intro ys h
    have ha : p a = true := h a (List.mem_cons_self a as)
    simp only [List.cons_append, List.dropWhile_cons, ha, if_true]
    exact ih (fun x hx => h x (List.mem_cons_of_mem a hx))

/-! ## C1: alias resolution -/

theorem resolveAliasAux_stops_of_full (aliases : VarMap) :
    ∀ (seen tokens : List String) (f : Nat), 32 ≤ seen.length →
      resolveAliasAux aliases seen tokens f = tokens := by
  intro seen tokens f h
  cases f with
  | zero => rfl
  | succ f =>
    cases tokens with
    | nil => rfl
    | cons t0 rest =>
      cases haln : aliases t0 with
      | none => simp [resolveAliasAux, haln]
      | some aliasText =>
        simp only [resolveAliasAux, haln]
        rw [if_pos]
        cases hb : seen.contains t0 with
        | true => exact Or.inl rfl
        | false =>
          refine Or.inr ?_
          show 32 < (t0 :: seen).length
          simp only [List.length_cons]
          omega

theorem resolveAliasAux_fuel (aliases : VarMap) :
    ∀ (f f' : Nat) (seen tokens : List String),
      33 ≤ seen.length + f → 33 ≤ seen.length + f' →
      resolveAliasAux aliases seen tokens f = resolveAliasAux aliases seen tokens f' := by
  intro f
  induction f with
  | zero =>
    intro f' seen tokens h h'
    have h32 : 32 ≤ seen.length := by omega
    rw [resolveAliasAux_stops_of_full aliases seen tokens 0 h32,
        resolveAliasAux_stops_of_full aliases seen tokens f' h32]
  | succ f ih =>
    intro f' seen tokens h h'
    by_cases hbig : 32 ≤ seen.length
    · rw [resolveAliasAux_stops_of_full aliases seen tokens (f + 1) hbig,
          resolveAliasAux_stops_of_full aliases seen tokens f' hbig]
    · have hf' : f' ≠ 0 := by omega
      obtain ⟨f'', rfl⟩ : ∃ k, f' = k + 1 := ⟨f' - 1, by omega⟩
      cases tokens with
      | nil => rfl
      | cons t0 rest =>
        cases haln : aliases t0 with
        | none => simp [resolveAliasAux, haln]
        | some aliasText =>
          simp only [resolveAliasAux, haln]
          by_cases hC : (!seen.contains t0) = false ∨
              32 < (if (!seen.contains t0) = true then t0 :: seen else seen).length
          · rw [if_pos hC, if_pos hC]
          · rw [if_neg hC, if_neg hC]
            have hb : seen.contains t0 = false := by
              cases hb2 : seen.contains t0
              · rfl
              · exact absurd (Or.inl (by rw [hb2]; rfl)) hC
            rw [hb]
            cases htok : tokenize aliasText with
            | error e =>
              exact ih f'' (t0 :: seen) (t0 :: rest)
                (by simp only [List.length_cons]; omega)
                (by simp only [List.length_cons]; omega)
            | ok aliasTokens =>
              exact ih f'' (t0 :: seen) (aliasTokens ++ rest)
                (by simp only [List.length_cons]; omega)
                (by simp only [List.length_cons]; omega)

/-- Claim C1 (amended).  `main.rs` alias resolution repeatedly substitutes
the first word (replacement split into new first word plus words prepended
ahead of the accumulated arguments) until no alias exists, a name repeats,
or the seen-set exceeds 32 names: every fuel of at least 33 loop iterations
yields the same result as the canonical run, so resolution of any word
against any alias table terminates within 32 expansions; on the
mutually-referential table `ll -> ls -la`, `ls -> ll` resolving `ll`
returns the bounded word list `[ll, -la]`.  `lib.rs` alias resolution
instead performs its single substitution, giving `(ls, [-la])` there. -/
theorem alias_resolution_bounded :
    (∀ (aliases : VarMap) (cmd : String) (f : Nat), 33 ≤ f →
      resolveAliasAux aliases [] [cmd] f = resolve_alias aliases cmd)
    ∧ resolve_alias cycleAliases "ll" = ["ll", "-la"]
    ∧ libResolveAlias cycleAliases "ll" [] = ("ls", ["-la"]) := by
  refine ⟨?_, ?_, ?_⟩
  · intro aliases cmd f hf
    exact resolveAliasAux_fuel aliases f 33 [] [cmd]
      (by simpa using hf) (by simp)
  · decide
  · rfl

/-- Witness for `alias_resolution_bounded`: the fuel bound applied at fuel
100 on the cycle table. -/
theorem alias_resolution_bounded_witness :
    resolveAliasAux cycleAliases [] ["ll"] 100 = resolve_alias cycleAliases "ll" :=
  alias_resolution_bounded.1 cycleAliases "ll" 100 (by norm_num)

/-- Counterexample to claim C1 as stated: `lib.rs` `resolve_alias` (one of
the two cited resolvers) stops after a single substitution even though an
alias still exists for the resulting first word — with `a -> b`, `b -> c`
it returns `b`, whose alias `c` is never applied, although no name repeated
and the 32-expansion ceiling was not reached. -/
theorem lib_resolve_alias_single_step_cex :
    libResolveAlias chainAliases "a" [] = ("b", []) ∧ chainAliases "b" = some "c" :=
  ⟨rfl, rfl⟩

/-! ## C2: unterminated quotes -/

theorem tokenizeGo_cons_eq (c : Char) (cs cur : List Char) (inQ : Bool)
    (acc : List (List Char)) :
    tokenizeGo (c :: cs) cur inQ acc =
      if c = '"' then tokenizeGo cs cur (!inQ) acc
      else if (c = ' ' ∨ c = '\t') ∧ inQ = false then
        if cur.isEmpty then tokenizeGo cs cur inQ acc
        else tokenizeGo cs [] inQ (acc ++ [cur])
      else if c = '\\' then
        match cs with
        | [] =>
          if inQ then .error .invalidInput
          else .ok ((if cur.isEmpty then acc else acc ++ [cur]).map (fun w => String.mk w))
        | d :: ds => tokenizeGo ds (cur ++ [d]) inQ acc
      else tokenizeGo cs (cur ++ [c]) inQ acc := by
  rw [tokenizeGo.eq_def]

theorem finalInQuotes_cons_eq (c : Char) (cs : List Char) (inQ : Bool) :
    finalInQuotes (c :: cs) inQ =
      if c = '"' then finalInQuotes cs (!inQ)
      else if c = '\\' then
        match cs with
        | [] => inQ
        | _ :: ds => finalInQuotes ds inQ
      else finalInQuotes cs inQ := by
  rw [finalInQuotes.eq_def]

theorem tokenizeGo_error_iff_aux :
    ∀ (n : Nat) (chars cur : List Char) (inQ : Bool) (acc : List (List Char)),
      chars.length ≤ n →
      ((tokenizeGo chars cur inQ acc = Except.error ErrorKind.invalidInput) ↔
        finalInQuotes chars inQ = true) := by
  intro n
  induction n with
  | zero =>
    intro chars cur inQ acc h
    have hnil : chars = [] := List.length_eq_zero.mp (Nat.le_zero.mp h)
    subst hnil
    cases inQ <;> simp [tokenizeGo, finalInQuotes]
  | succ n ih =>
    intro chars cur inQ acc h
    cases chars with
    | nil => cases inQ <;> simp [tokenizeGo, finalInQuotes]
    | cons c cs =>
      rw [tokenizeGo_cons_eq, finalInQuotes_cons_eq]
      by_cases h1 : c = '"'
      · rw [if_pos h1, if_pos h1]
        exact ih cs cur (!inQ) acc (by simp at h; omega)
      · rw [if_neg h1, if_neg h1]
        by_cases h2 : (c = ' ' ∨ c = '\t') ∧ inQ = false
        · rw [if_pos h2]
          have hb : ¬ c = '\\' := by rcases h2.1 with hsp | hsp <;> simp [hsp]
          rw [if_neg hb]
          obtain ⟨-, hq⟩ := h2
          subst hq
          by_cases h3 : cur.isEmpty
          · rw [if_pos h3]
            exact ih cs cur false acc (by simp at h; omega)
          · rw [if_neg h3]
            exact ih cs [] false (acc ++ [cur]) (by simp at h; omega)
        · rw [if_neg h2]
          by_cases h4 : c = '\\'
          · rw [if_pos h4, if_pos h4]
            cases cs with
            | nil => cases inQ <;> simp
            | cons d ds =>
              exact ih ds (cur ++ [d]) inQ acc (by simp at h; omega)
          · rw [if_neg h4, if_neg h4]
            exact ih cs (cur ++ [c]) inQ acc (by simp at h; omega)

theorem tokenizeGo_error_iff (chars cur : List Char) (inQ : Bool)
    (acc : List (List Char)) :
    (tokenizeGo chars cur inQ acc = Except.error ErrorKind.invalidInput) ↔
      finalInQuotes chars inQ = true :=
  tokenizeGo_error_iff_aux chars.length chars cur inQ acc (le_refl _)

theorem read_single_quoted_terminated (s rest : List Char) (hs : '\'' ∉ s) :
    read_single_quoted (s ++ '\'' :: rest) = (String.mk s, rest) := by
  have hall : ∀ x ∈ s, (!(x == '\'')) = true := by
    intro x hx
    simp only [Bool.not_eq_true', beq_eq_false_iff_ne]
    exact fun h => hs (h ▸ hx)
  unfold read_single_quoted
  rw [takeWhile_append_all hall, dropWhile_append_all hall]
  simp [List.takeWhile, List.dropWhile]

theorem read_single_quoted_truncates (s : List Char) (hs : '\'' ∉ s) :
    read_single_quoted s = (String.mk s, []) := by
  have hall : ∀ x ∈ s, (!(x == '\'')) = true := by
    intro x hx
    simp only [Bool.not_eq_true', beq_eq_false_iff_ne]
    exact fun h => hs (h ▸ hx)
  unfold read_single_quoted
  rw [List.takeWhile_eq_self_iff.mpr hall, List.dropWhile_eq_nil_iff.mpr hall]
  simp

/-- Claim C2 (amended).  Only `main.rs` `tokenize` rejects unterminated
quotes, and only double ones: it returns `InvalidInput` (producing no token
list, so nothing is executed) exactly when the double-quote state is still
open after scanning the whole input; an unterminated single quote is not an
error anywhere — `tokenize` treats `'` as an ordinary character, and the
flash lexer never fails, silently returning the remaining input as the
quoted span. -/
theorem unterminated_quote_handling :
    (∀ input : String,
      tokenize input = Except.error ErrorKind.invalidInput ↔
        finalInQuotes input.toList false = true)
    ∧ (∀ s : List Char, '\'' ∉ s → read_single_quoted s = (String.mk s, [])) := by
  constructor
  · intro input
    exact tokenizeGo_error_iff input.toList [] false []
  · exact read_single_quoted_truncates

/-- Witness for `unterminated_quote_handling`: `echo "abc` is rejected with
`InvalidInput`, and the flash lexer silently truncates `'abc`. -/
theorem unterminated_quote_handling_witness :
    tokenize (String.mk ['e','c','h','o',' ','"','a','b','c'])
        = Except.error ErrorKind.invalidInput
    ∧ read_single_quoted ['a','b','c'] = (String.mk ['a','b','c'], []) :=
  ⟨(unterminated_quote_handling.1
      (String.mk ['e','c','h','o',' ','"','a','b','c'])).mpr (by decide),
   unterminated_quote_handling.2 ['a','b','c'] (by decide)⟩

/-- Counterexample to claim C2 as stated: `echo 'abc` has an unterminated
single quote yet `main.rs` `tokenize` succeeds with a truncated token list
instead of failing with `InvalidInput`; and the flash lexer turns the
unterminated double-quoted span `abc` into an ordinary token list with no
error at all. -/
theorem unterminated_quote_not_rejected_cex :
    tokenize (String.mk ['e','c','h','o',' ','\'','a','b','c'])
        = Except.ok ["echo", String.mk ['\'','a','b','c']]
    ∧ read_double_quoted ['a','b','c'] = ([Tok.word (String.mk ['a','b','c'])], []) := by
  constructor
  · rfl
  · simp [read_double_quoted, rdqGo, read_variable]

/-! ## C10: normalize_path -/

theorem mem_pathPop {x : Component} {p : FsPath} (h : x ∈ pathPop p) : x ∈ p := by
  unfold pathPop at h
  split at h
  · simpa using h
  · simpa using h
  · exact (List.dropLast_sublist p).subset h

theorem normalizeGo_no_dots :
    ∀ (p acc : FsPath),
      (∀ c ∈ acc, c ≠ Component.curDir ∧ c ≠ Component.parentDir) →
      ∀ c ∈ normalizeGo acc p, c ≠ Component.curDir ∧ c ≠ Component.parentDir := by
  intro p
  induction p with
  | nil =>
    intro acc hacc
    simpa [normalizeGo] using hacc
  | cons c cs ih =>
    intro acc hacc
    cases c with
    | parentDir =>
      exact ih (pathPop acc) (fun x hx => hacc x (mem_pathPop hx))
    | curDir =>
      exact ih acc hacc
    | rootDir =>
      refine ih (List.append acc [Component.rootDir]) ?_
      intro x hx
      rcases List.mem_append.mp hx with hx | hx
      · exact hacc x hx
      · simp only [List.mem_singleton] at hx
        subst hx
        exact ⟨by simp, by simp⟩
    | normal s =>
      refine ih (List.append acc [Component.normal s]) ?_
      intro x hx
      rcases List.mem_append.mp hx with hx | hx
      · exact hacc x hx
      · simp only [List.mem_singleton] at hx
        subst hx
        exact ⟨by simp, by simp⟩

/-- Claim C10.  `normalize_path` never keeps a `.` or `..` component: each
`..` pops the most recently kept component (`pathPop`, which drops the last
pushed component and leaves the bare root or empty prefix unchanged), a `.`
is skipped, and a `..` arriving with an empty result so far is simply
dropped rather than preserved. -/
theorem normalize_path_no_dot_components :
    (∀ (p : FsPath), ∀ c ∈ normalize_path p,
      c ≠ Component.curDir ∧ c ≠ Component.parentDir)
    ∧ (∀ (acc rest : FsPath),
        normalizeGo acc (Component.parentDir :: rest) = normalizeGo (pathPop acc) rest)
    ∧ (∀ rest : FsPath,
        normalize_path (Component.parentDir :: rest) = normalize_path rest) := by
  refine ⟨?_, ?_, ?_⟩
  · intro p
    exact normalizeGo_no_dots p [] (fun c hc => absurd hc (List.not_mem_nil c))
  · intro acc rest
    rfl
  · intro rest
    rfl

/-- Witness for `normalize_path_no_dot_components`: the normalization of
`/a/../../b` contains no `..`. -/
theorem normalize_path_no_dot_components_witness :
    Component.parentDir ∉ normalize_path
      [Component.rootDir, Component.normal "a", Component.parentDir,
       Component.parentDir, Component.normal "b"] :=
  fun h => (normalize_path_no_dot_components.1 _ _ h).2 rfl

/-! ## C3: cd keeps shell dir, OS cwd and PWD in sync -/

/-- Claim C3.  Whenever `change_directory` succeeds, the shell's recorded
current directory equals the OS process's actual working directory, and the
`PWD` variable holds that path's string form: the three are committed
together in the single success branch. -/
theorem cd_success_syncs_cwd_and_pwd (fs : List FsPath) (sh : ShellSt) (os : OsSt)
    (args : List String)
    (hok : (change_directory fs sh os args).2.2 = Except.ok ()) :
    (change_directory fs sh os args).1.current_dir
        = (change_directory fs sh os args).2.1.cwd
    ∧ (change_directory fs sh os args).1.vars "PWD"
        = some (pathToString (change_directory fs sh os args).1.current_dir) := by
  by_cases hlen : 1 < args.length
  · simp [change_directory, hlen] at hok
  · by_cases hmem : fs.contains (cdTarget sh args)
    · simp [change_directory, set_current_dir, is_dir, hlen, hmem, insertVar]
    · simp [change_directory, set_current_dir, is_dir, hlen, hmem] at hok

/-- Witness for `cd_success_syncs_cwd_and_pwd`: `cd` with no arguments from
a root-homed shell on a file system containing the root. -/
theorem cd_success_syncs_cwd_and_pwd_witness :
    (change_directory [rootPath] shRoot osRoot []).1.current_dir
        = (change_directory [rootPath] shRoot osRoot []).2.1.cwd
    ∧ (change_directory [rootPath] shRoot osRoot []).1.vars "PWD"
        = some (pathToString (change_directory [rootPath] shRoot osRoot []).1.current_dir) :=
  cd_success_syncs_cwd_and_pwd [rootPath] shRoot osRoot [] (by rfl)

/-! ## C5: the cd builtin -/

/-- Claim C5 (amended).  `cd` with no argument targets the (normalized)
home directory; with one argument a leading `~` is stripped and the rest
joined onto the home directory with `PathBuf::join` semantics — so a
relative remainder lands under home but an absolute remainder (as in
`~/x`, whose remainder is `/x`) replaces home entirely; any other argument
is joined onto the current directory; the join is normalized purely
lexically (never yielding `.`/`..`, no filesystem access); then the OS
change is attempted: a non-existing target is `InvalidInput` with the
shell untouched, an existing one commits current directory, `PWD` and exit
status 0. -/
theorem change_directory_behavior :
    (∀ sh : ShellSt, cdTarget sh [] = normalize_path sh.home_dir)
    ∧ (∀ (sh : ShellSt) (a : String), startsWithChar a '~' = true →
        cdTarget sh [a] = normalize_path (pathJoin sh.home_dir (parsePath (a.drop 1))))
    ∧ (∀ (sh : ShellSt) (rest : FsPath),
        pathJoin sh.home_dir (Component.rootDir :: rest) = Component.rootDir :: rest)
    ∧ (∀ (sh : ShellSt) (a : String), startsWithChar a '~' = false →
        cdTarget sh [a] = normalize_path (pathJoin sh.current_dir (parsePath a)))
    ∧ (∀ (p : FsPath), ∀ c ∈ normalize_path p,
        c ≠ Component.curDir ∧ c ≠ Component.parentDir)
    ∧ (∀ (fs : List FsPath) (sh : ShellSt) (os : OsSt) (args : List String),
        args.length ≤ 1 → fs.contains (cdTarget sh args) = false →
        change_directory fs sh os args = (sh, os, Except.error ErrorKind.invalidInput))
    ∧ (∀ (fs : List FsPath) (sh : ShellSt) (os : OsSt) (args : List String),
        args.length ≤ 1 → fs.contains (cdTarget sh args) = true →
        change_directory fs sh os args =
          ({ sh with current_dir := cdTarget sh args,
                     vars := insertVar sh.vars "PWD" (pathToString (cdTarget sh args)),
                     exit_status := 0 },
           { cwd := cdTarget sh args }, Except.ok ())) := by
  refine ⟨?_, ?_, ?_, ?_, ?_, ?_, ?_⟩
  · intro sh
    rfl
  · intro sh a ha
    simp [cdTarget, ha]
  · intro sh rest
    rfl
  · intro sh a ha
    simp [cdTarget, ha]
  · intro p
    exact normalizeGo_no_dots p [] (fun c hc => absurd hc (List.not_mem_nil c))
  · intro fs sh os args hlen hmem
    have hlt : ¬ 1 < args.length := by omega
    simp [change_directory, set_current_dir, is_dir, hlt, hmem]
  · intro fs sh os args hlen hmem
    have hlt : ¬ 1 < args.length := by omega
    simp [change_directory, set_current_dir, is_dir, hlt, hmem]

/-- Witness for `change_directory_behavior`: `cd x` from `/home/u` commits
`/home/u/x`, `PWD` and status 0 on a file system containing that
directory. -/
theorem change_directory_behavior_witness :
    change_directory fsHomeUX shHomeU osHomeU ["x"] =
      ({ shHomeU with current_dir := cdTarget shHomeU ["x"],
                      vars := insertVar shHomeU.vars "PWD" (pathToString (cdTarget shHomeU ["x"])),
                      exit_status := 0 },
       { cwd := cdTarget shHomeU ["x"] }, Except.ok ()) :=
  change_directory_behavior.2.2.2.2.2.2 fsHomeUX shHomeU osHomeU ["x"]
    (by decide) (by rfl)

/-- Counterexample to claim C5 as stated: with home `/home/u`, the argument
`~/x` is not sent to the home directory — `home_dir.join("/x")` discards
home because the remainder is absolute.  The claimed target `/home/u/x`
exists in the file system, yet `cd ~/x` fails with `InvalidInput` (its real
target is `/x`). -/
theorem cd_tilde_slash_discards_home_cex :
    is_dir fsHomeUX (normalize_path (pathJoin shHomeU.home_dir (parsePath "x"))) = true
    ∧ change_directory fsHomeUX shHomeU osHomeU ["~/x"]
        = (shHomeU, osHomeU, Except.error ErrorKind.invalidInput) := by
  constructor
  · rfl
  · rfl

/-! ## C4: pipeline orchestration -/

theorem spawnLoop_only_spawns :
    ∀ (stages : List (Option Int)) (i : Nat) (e : PipeEvent),
      e ∈ spawnLoop stages i → ∃ k, e = PipeEvent.spawnEv k := by
  intro stages
  induction stages with
  | nil => intro i e he; simp [spawnLoop] at he
  | cons c cs ih =>
    intro i e he
    simp only [spawnLoop, List.mem_cons] at he
    rcases he with he | he
    · exact ⟨i, he⟩
    · exact ih (i + 1) e he

theorem waitLoop_only_waits :
    ∀ (stages : List (Option Int)) (i : Nat) (last : Int) (e : PipeEvent),
      e ∈ (waitLoop stages i last).1 → ∃ k, e = PipeEvent.waitEv k := by
  intro stages
  induction stages with
  | nil => intro i last e he; simp [waitLoop] at he
  | cons c cs ih =>
    intro i last e he
    simp only [waitLoop, List.mem_cons] at he
    rcases he with he | he
    · exact ⟨i, he⟩
    · exact ih (i + 1) _ e he

theorem waitLoop_last_code :
    ∀ (stages : List (Option Int)) (i : Nat) (last : Int) (c : Int),
      stages.getLast? = some (some c) → (waitLoop stages i last).2 = c := by
  intro stages
  induction stages with
  | nil => intro i last c h; simp at h
  | cons s cs ih =>
    intro i last c h
    cases cs with
    | nil =>
      simp only [List.getLast?_singleton, Option.some.injEq] at h
      subst h
      simp [waitLoop]
    | cons s' cs' =>
      rw [List.getLast?_cons_cons] at h
      simp only [waitLoop]
      exact ih (i + 1) _ c h

/-- Claim C4.  The `Pipeline` arm spawns every stage before waiting on any
(in the event trace, every spawn event strictly precedes every wait
event), and when the last stage reports an exit code, that code — not any
earlier stage's — is the pipeline's reported status. -/
theorem pipeline_spawn_before_wait_last_status (stages : List (Option Int)) (c : Int)
    (hlast : stages.getLast? = some (some c)) :
    (runPipeline stages).2 = c
    ∧ (∀ (p q : Nat) (i j : Nat),
        (runPipeline stages).1.get? p = some (PipeEvent.spawnEv i) →
        (runPipeline stages).1.get? q = some (PipeEvent.waitEv j) →
        p < q) := by
  constructor
  · exact waitLoop_last_code stages 0 0 c hlast
  · intro p q i j hp hq
    simp only [runPipeline] at hp hq
    by_contra hle
    push_neg at hle
    -- q ≤ p; the trace is spawn events then wait events
    have hplen : p < (spawnLoop stages 0).length := by
      by_contra hgeq
      push_neg at hgeq
      rw [List.get?_append_right hgeq] at hp
      have := List.get?_mem hp
      obtain ⟨k, hk⟩ := waitLoop_only_waits stages 0 0 _ this
      simp at hk
    have hqlen : (spawnLoop stages 0).length ≤ q := by
      by_contra hlt
      push_neg at hlt
      rw [List.get?_append hlt] at hq
      have := List.get?_mem hq
      obtain ⟨k, hk⟩ := spawnLoop_only_spawns stages 0 _ this
      simp at hk
    omega

/-- Witness for `pipeline_spawn_before_wait_last_status`: a two-stage
pipeline with codes 0 and 1 reports 1, the last stage's code. -/
theorem pipeline_spawn_before_wait_last_status_witness :
    (runPipeline [some 0, some 1]).2 = 1 :=
  (pipeline_spawn_before_wait_last_status [some 0, some 1] 1 (by rfl)).1

/-! ## C6: variable resolution -/

theorem toList_mk (l : List Char) : (String.mk l).toList = l := rfl

theorem mk_toList (s : String) : String.mk s.toList = s := rfl

theorem replaceTilde_of_not_mem (home : String) :
    ∀ (s : List Char), '~' ∉ s → replaceTilde home s = s := by
  intro s
  induction s with
  | nil => intro h; rfl
  | cons c cs ih =>
    intro h
    have hc : ¬ c = '~' := fun hh => h (by simp [hh])
    simp only [replaceTilde, if_neg hc]
    rw [ih (fun hm => h (List.mem_cons_of_mem c hm))]

/-- Claim C6 (amended).  `$name` resolves to the stored value when present
and to the (tilde-replaced) literal text when absent; `$?` always resolves
to the last exit status regardless of the variable map; and every
occurrence of `~` — leading or not — is replaced by the home directory
path before `$`-substitution (`arg.replace("~", home)` replaces all
occurrences). -/
theorem resolve_variable_behavior :
    (∀ (sh : ShellSt) (name v : String),
        '~' ∉ name.toList → name ≠ "?" → sh.vars name = some v →
        resolve_variable sh (String.mk ('$' :: name.toList)) = v)
    ∧ (∀ (sh : ShellSt) (name : String),
        '~' ∉ name.toList → name ≠ "?" → sh.vars name = none →
        resolve_variable sh (String.mk ('$' :: name.toList))
          = String.mk ('$' :: name.toList))
    ∧ (∀ sh : ShellSt, resolve_variable sh "$?" = toString sh.exit_status)
    ∧ (∀ (sh : ShellSt) (arg : String),
        (replaceTilde (pathToString sh.home_dir) arg.toList).head? ≠ some '$' →
        resolve_variable sh arg
          = String.mk (replaceTilde (pathToString sh.home_dir) arg.toList)) := by
  refine ⟨?_, ?_, ?_, ?_⟩
  · intro sh name v hnm hq hv
    have hdol : '~' ∉ ('$' :: name.toList) := by
      intro hmem
      rcases List.mem_cons.mp hmem with h | h
      · exact absurd h (by decide)
      · exact hnm h
    have hrt : replaceTilde (pathToString sh.home_dir) ('$' :: name.data)
        = '$' :: name.data := replaceTilde_of_not_mem _ _ hdol
    simp [resolve_variable, toList_mk, hrt, stripDollar, mk_toList, hq, hv]
  · intro sh name hnm hq hv
    have hdol : '~' ∉ ('$' :: name.toList) := by
      intro hmem
      rcases List.mem_cons.mp hmem with h | h
      · exact absurd h (by decide)
      · exact hnm h
    have hrt : replaceTilde (pathToString sh.home_dir) ('$' :: name.data)
        = '$' :: name.data := replaceTilde_of_not_mem _ _ hdol
    simp [resolve_variable, toList_mk, hrt, stripDollar, mk_toList, hq, hv]
  · intro sh
    rfl
  · intro sh arg hhead
    cases hl : replaceTilde (pathToString sh.home_dir) arg.toList with
    | nil =>
      have hl' : replaceTilde (pathToString sh.home_dir) arg.data = [] := hl
      simp [resolve_variable, toList_mk, hl, hl', stripDollar]
    | cons c cs =>
      rw [hl] at hhead
      have hl' : replaceTilde (pathToString sh.home_dir) arg.data = c :: cs := hl
      have hc : ¬ c = '$' := by
        intro h
        subst h
        simp at hhead
      simp [resolve_variable, toList_mk, hl, hl', stripDollar, hc]

/-- Witness for `resolve_variable_behavior`: `$X` resolves to the stored
`val`, and `$?` to the recorded exit status. -/
theorem resolve_variable_behavior_witness :
    resolve_variable shVarX (String.mk ['$','X']) = "val"
    ∧ resolve_variable shTilde "$?" = toString shTilde.exit_status :=
  ⟨resolve_variable_behavior.1 shVarX "X" "val" (by decide) (by decide) rfl,
   resolve_variable_behavior.2.2.1 shTilde⟩

/-- Counterexample to claim C6 as stated: the `~` in `a~b` is not leading,
yet with home `/h` the argument resolves to `a/hb` — `resolve_variable`
replaces every `~`, not only a leading one. -/
theorem resolve_variable_tilde_everywhere_cex :
    resolve_variable shTilde "a~b" = "a/hb" ∧ "a/hb" ≠ "a~b" :=
  ⟨rfl, by decide⟩

/-! ## C7: external spawn failure -/

/-- Claim C7 (amended).  In `main.rs`, a failed spawn is surfaced as
`Err(kind)` to the caller with the shell state untouched (no abort, though
the error value carries only the kind, not the attempted name); in the
flash shell (`lib.rs` `execute`, `Command` arm) the `expect` on the spawn
result panics instead, aborting the process, and a successful spawn with
an exit code completes normally. -/
theorem spawn_failure_handling :
    (∀ (sh : ShellSt) (k : ErrorKind),
      execute_external_command sh (Except.error k) = (sh, Except.error k))
    ∧ (∀ (sh : ShellSt) (code : Int),
      execute_external_command sh (Except.ok code)
        = ({ sh with exit_status := code }, Except.ok ()))
    ∧ (∀ k : ErrorKind,
      libSpawnExternal (Except.error k)
        = ExecOutcome.panicked "Failed to spawn child process")
    ∧ (∀ code : Int, libSpawnExternal (Except.ok (some code)) = ExecOutcome.completed code) := by
  exact ⟨fun sh k => rfl, fun sh code => rfl, fun k => rfl, fun code => rfl⟩

/-- Counterexample to claim C7 as stated: in the flash shell a spawn
failure does not return an error result — the `expect` panics, aborting
the shell process. -/
theorem lib_spawn_failure_panics_cex :
    libSpawnExternal (Except.error ErrorKind.notFound)
        = ExecOutcome.panicked "Failed to spawn child process"
    ∧ libSpawnExternal (Except.error ErrorKind.notFound)
        ≠ ExecOutcome.errored ErrorKind.notFound := by
  constructor
  · rfl
  · intro h
    cases h

/-! ## C9: add_variable and add_alias -/

theorem splitOnceChar_eq_none (c : Char) :
    ∀ l : List Char, c ∉ l → splitOnceChar c l = none := by
  intro l
  induction l with
  | nil => intro h; rfl
  | cons x xs ih =>
    intro h
    have hx : ¬ x = c := fun hh => h (by simp [hh])
    simp only [splitOnceChar, if_neg hx]
    rw [ih (fun hm => h (List.mem_cons_of_mem x hm))]

theorem splitOnceChar_eq_some (c : Char) :
    ∀ l : List Char, c ∈ l →
      splitOnceChar c l
        = some (l.takeWhile (fun x => !(x == c)),
                (l.dropWhile (fun x => !(x == c))).drop 1) := by
  intro l
  induction l with
  | nil => intro h; simp at h
  | cons x xs ih =>
    intro h
    by_cases hx : x = c
    · subst hx
      simp [splitOnceChar, List.takeWhile_cons, List.dropWhile_cons]
    · have hmem : c ∈ xs := by
        rcases List.mem_cons.mp h with h | h
        · exact absurd h.symm hx
        · exact h
      have hxb : (!(x == c)) = true := by
        simp only [Bool.not_eq_true', beq_eq_false_iff_ne]
        exact hx
      simp only [splitOnceChar, if_neg hx, ih hmem,
        List.takeWhile_cons, List.dropWhile_cons, hxb, if_true]

/-- Claim C9.  For an argument with no `=`, `add_variable` and `add_alias`
leave their map unchanged and set the exit status to 1; for an argument
containing `=`, they split at the first `=`, insert the whitespace-trimmed
key with the value stripped of surrounding double quotes, and set the exit
status to 0. -/
theorem add_variable_add_alias_behavior :
    ∀ (sh : ShellSt) (text : String),
      (text.toList.contains '=' = false →
        (add_variable sh text).vars = sh.vars
        ∧ (add_variable sh text).exit_status = 1
        ∧ (add_alias sh text).aliases = sh.aliases
        ∧ (add_alias sh text).exit_status = 1)
      ∧ (text.toList.contains '=' = true →
        (add_variable sh text).vars
            = insertVar sh.vars
                (String.mk (text.toList.takeWhile (fun x => !(x == '=')))).trim
                (trimQuotes (String.mk ((text.toList.dropWhile (fun x => !(x == '='))).drop 1)))
        ∧ (add_variable sh text).exit_status = 0
        ∧ (add_alias sh text).aliases
            = insertVar sh.aliases
                (String.mk (text.toList.takeWhile (fun x => !(x == '=')))).trim
                (trimQuotes (String.mk ((text.toList.dropWhile (fun x => !(x == '='))).drop 1)))
        ∧ (add_alias sh text).exit_status = 0) := by
  intro sh text
  constructor
  · intro h
    have hnm : '=' ∉ text.toList := by simpa using h
    have hnone : splitOnceChar '=' text.data = none :=
      splitOnceChar_eq_none '=' text.toList hnm
    simp [add_variable, add_alias, hnone]
  · intro h
    have hm : '=' ∈ text.toList := by simpa using h
    have hsome : splitOnceChar '=' text.data
        = some (text.data.takeWhile (fun x => !(x == '=')),
                (text.data.dropWhile (fun x => !(x == '='))).drop 1) :=
      splitOnceChar_eq_some '=' text.toList hm
    simp [add_variable, add_alias, hsome]

/-- Witness for `add_variable_add_alias_behavior`: `novalue` fails with
status 1 and an unchanged map, `K=v` succeeds with status 0. -/
theorem add_variable_add_alias_behavior_witness :
    ((add_variable shRoot "novalue").vars = shRoot.vars
      ∧ (add_variable shRoot "novalue").exit_status = 1)
    ∧ (add_variable shRoot "K=v").exit_status = 0 :=
  ⟨⟨((add_variable_add_alias_behavior shRoot "novalue").1 (by decide)).1,
    ((add_variable_add_alias_behavior shRoot "novalue").1 (by decide)).2.1⟩,
   ((add_variable_add_alias_behavior shRoot "K=v").2 (by decide)).2.1⟩

/-! ## C8: quoted-span lexing -/

theorem rdqGo_cons_eq (c : Char) (cs buf : List Char) (toks : List Tok) :
    rdqGo (c :: cs) buf toks =
      if c = '"' then
        (if buf.isEmpty then toks else toks ++ [Tok.word (String.mk buf)], cs)
      else if c = '$' then
        let toks' := if buf.isEmpty then toks else toks ++ [Tok.word (String.mk buf)]
        let v := read_variable cs
        rdqGo v.2 [] (toks' ++ [v.1])
      else if c = '\\' then
        match cs with
        | [] => rdqGo [] buf toks
        | d :: ds => rdqGo ds (buf ++ [d]) toks
      else rdqGo cs (buf ++ [c]) toks := by
  rw [rdqGo.eq_def]

theorem rdqGo_literal :
    ∀ (s t buf : List Char) (toks : List Tok),
      (∀ c ∈ s, c ≠ '"' ∧ c ≠ '$' ∧ c ≠ '\\') →
      rdqGo (s ++ t) buf toks = rdqGo t (buf ++ s) toks := by
  intro s
  induction s with
  | nil => intro t buf toks _; simp
  | cons c s' ih =>
    intro t buf toks h
    obtain ⟨h1, h2, h3⟩ := h c (List.mem_cons_self c s')
    rw [List.cons_append, rdqGo_cons_eq, if_neg h1, if_neg h2, if_neg h3,
      ih t (buf ++ [c]) toks (fun x hx => h x (List.mem_cons_of_mem c hx))]
    simp

theorem litOk_spec {s : List Char} (h : litOk s = true) :
    s ≠ [] ∧ ∀ c ∈ s, c ≠ '"' ∧ c ≠ '$' ∧ c ≠ '\\' := by
  unfold litOk at h
  simp only [Bool.and_eq_true, List.all_eq_true, Bool.not_eq_true',
    beq_eq_false_iff_ne] at h
  obtain ⟨hne, hall⟩ := h
  constructor
  · intro he
    subst he
    simp at hne
  · intro c hc
    obtain ⟨⟨h1, h2⟩, h3⟩ := hall c hc
    exact ⟨h1, h2, h3⟩

theorem read_variable_spans_gen (name rest : List Char)
    (hname : ∀ c ∈ name, isVarChar c = true)
    (hhead : (rest.head?.all fun c => !(isVarChar c)) = true)
    (hbr : name = [] → (rest.head?.all fun c => !(c == '{')) = true) :
    read_variable (name ++ rest) = (Tok.var (String.mk name), rest) := by
  have htail : List.takeWhile isVarChar rest = [] ∧ List.dropWhile isVarChar rest = rest := by
    cases rest with
    | nil => simp
    | cons r rs =>
      have hr : isVarChar r = false := by simpa using hhead
      simp [List.takeWhile_cons, List.dropWhile_cons, hr]
  cases name with
  | nil =>
    have hb := hbr rfl
    have hnb : ¬ (rest.head? = some '{') := by
      cases rest with
      | nil => simp
      | cons r rs =>
        have hr : (!(r == '{')) = true := by simpa using hb
        simp only [List.head?_cons, Option.some.injEq]
        intro he
        subst he
        simp at hr
    simp only [List.nil_append]
    unfold read_variable
    rw [if_neg hnb, htail.1, htail.2]
  | cons c0 name' =>
    have hc0 : isVarChar c0 = true := hname c0 (List.mem_cons_self c0 name')
    have hbrh : ¬ ((c0 :: name' ++ rest).head? = some '{') := by
      simp only [List.cons_append, List.head?_cons, Option.some.injEq]
      intro h
      subst h
      simp [isVarChar] at hc0
    unfold read_variable
    rw [if_neg hbrh]
    rw [takeWhile_append_all hname, dropWhile_append_all hname, htail.1, htail.2]
    simp

theorem read_variable_braced (name rest : List Char)
    (hname : ∀ c ∈ name, ¬ c = '}') :
    read_variable ('{' :: (name ++ '}' :: rest)) = (Tok.varBraced (String.mk name), rest) := by
  have hall : ∀ c ∈ name, (!(c == '}')) = true := by
    intro c hc
    simp only [Bool.not_eq_true', beq_eq_false_iff_ne]
    exact hname c hc
  unfold read_variable
  rw [if_pos (show ('{' :: (name ++ '}' :: rest)).head? = some '{' from rfl)]
  simp only [List.tail_cons]
  rw [takeWhile_append_all hall, dropWhile_append_all hall]
  simp [List.takeWhile, List.dropWhile]

theorem flushWord_toks (buf : List Char) (toks : List Tok) :
    (if buf.isEmpty then toks else toks ++ [Tok.word (String.mk buf)])
      = toks ++ flushWord buf := by
  unfold flushWord
  by_cases h : buf.isEmpty <;> simp [h]

theorem refFollow_head (n : List Char) (ps : List DqPiece) (rest : List Char)
    (hok : piecesOk ps = true) (hf : refFollowOk n ps = true) :
    (((renderPieces ps ++ '"' :: rest).head?.all fun c => !(isVarChar c)) = true)
    ∧ (n = [] →
        ((renderPieces ps ++ '"' :: rest).head?.all fun c => !(c == '{')) = true) := by
  cases ps with
  | nil =>
    constructor
    · simp only [renderPieces, List.nil_append, List.head?_cons, Option.all_some]
      decide
    · intro _
      simp only [renderPieces, List.nil_append, List.head?_cons, Option.all_some]
      decide
  | cons p tl =>
    cases p with
    | lit s =>
      simp only [piecesOk, Bool.and_eq_true] at hok
      obtain ⟨⟨hlit, -⟩, -⟩ := hok
      obtain ⟨hsne, -⟩ := litOk_spec hlit
      obtain ⟨a, as, rfl⟩ : ∃ a as, s = a :: as := by
        cases s with
        | nil => exact absurd rfl hsne
        | cons a as => exact ⟨a, as, rfl⟩
      simp only [refFollowOk, List.head?_cons, Option.all_some, Bool.and_eq_true] at hf
      obtain ⟨hf1, hf2⟩ := hf
      constructor
      · simp only [renderPieces, List.cons_append, List.head?_cons, Option.all_some]
        exact hf1
      · intro hn
        subst hn
        simp only [List.isEmpty_nil, Bool.not_true, Bool.false_or] at hf2
        simp only [renderPieces, List.cons_append, List.head?_cons, Option.all_some]
        exact hf2
    | ref m =>
      constructor
      · simp only [renderPieces, List.cons_append, List.head?_cons, Option.all_some]
        decide
      · intro _
        simp only [renderPieces, List.cons_append, List.head?_cons, Option.all_some]
        decide
    | refBraced m =>
      constructor
      · simp only [renderPieces, List.cons_append, List.head?_cons, Option.all_some]
        decide
      · intro _
        simp only [renderPieces, List.cons_append, List.head?_cons, Option.all_some]
        decide

theorem rdqGo_pieces :
    ∀ (n : Nat) (ps : List DqPiece), ps.length ≤ n → piecesOk ps = true →
      ∀ (buf : List Char) (toks : List Tok) (rest : List Char),
        (∀ s tl, ps = DqPiece.lit s :: tl → buf = []) →
        rdqGo (renderPieces ps ++ '"' :: rest) buf toks
          = (toks ++ flushWord buf ++ piecesToks ps, rest) := by
  intro n
  induction n with
  | zero =>
    intro ps hlen hok buf toks rest hbuf
    have hnil : ps = [] := List.length_eq_zero.mp (Nat.le_zero.mp hlen)
    subst hnil
    simp only [renderPieces, List.nil_append]
    rw [rdqGo_cons_eq, if_pos rfl, flushWord_toks]
    simp [piecesToks]
  | succ n ih =>
    intro ps hlen hok buf toks rest hbuf
    cases ps with
    | nil =>
      simp only [renderPieces, List.nil_append]
      rw [rdqGo_cons_eq, if_pos rfl, flushWord_toks]
      simp [piecesToks]
    | cons p tl =>
      have htl_len : tl.length ≤ n := by simp at hlen; omega
      cases p with
      | lit s =>
        have hbe : buf = [] := hbuf s tl rfl
        subst hbe
        simp only [piecesOk, Bool.and_eq_true] at hok
        obtain ⟨⟨hlit, hnl⟩, htl⟩ := hok
        obtain ⟨hsne, hschars⟩ := litOk_spec hlit
        simp only [renderPieces, List.append_assoc]
        rw [rdqGo_literal s _ [] toks hschars]
        simp only [List.nil_append]
        have hside : ∀ s' tl', tl = DqPiece.lit s' :: tl' → s = [] := by
          intro s' tl' he
          subst he
          simp [noLitHead] at hnl
        rw [ih tl htl_len htl s toks rest hside]
        have hfs : flushWord s = [Tok.word (String.mk s)] := by
          unfold flushWord
          cases s with
          | nil => exact absurd rfl hsne
          | cons a as => rfl
        simp [hfs, flushWord, piecesToks, hsne]
      | ref nm =>
        simp only [piecesOk, Bool.and_eq_true] at hok
        obtain ⟨⟨hnm, hfollow⟩, htl⟩ := hok
        have hnames : ∀ c ∈ nm, isVarChar c = true := by
          simpa [refNameOk, List.all_eq_true] using hnm
        obtain ⟨hh1, hh2⟩ := refFollow_head nm tl rest htl hfollow
        simp only [renderPieces, List.cons_append, List.append_assoc]
        rw [rdqGo_cons_eq]
        rw [if_neg (by decide : ¬ '$' = '"'), if_pos rfl]
        rw [read_variable_spans_gen nm _ hnames hh1 hh2]
        simp only []
        rw [flushWord_toks]
        rw [ih tl htl_len htl [] _ rest (fun _ _ _ => rfl)]
        simp [flushWord, piecesToks]
      | refBraced nm =>
        simp only [piecesOk, Bool.and_eq_true] at hok
        obtain ⟨hnm, htl⟩ := hok
        have hnames : ∀ c ∈ nm, ¬ c = '}' := by
          simpa [bracedNameOk, List.all_eq_true] using hnm
        simp only [renderPieces, List.cons_append, List.append_assoc]
        rw [rdqGo_cons_eq]
        rw [if_neg (by decide : ¬ '$' = '"'), if_pos rfl]
        rw [read_variable_braced nm _ hnames]
        simp only []
        rw [flushWord_toks]
        rw [ih tl htl_len htl [] _ rest (fun _ _ _ => rfl)]
        simp [flushWord, piecesToks]

/-- Claim C8.  For every double-quoted span — an arbitrary well-formed
sequence of literal stretches, unbraced `$name` references and braced
`${name}` references, in any number and position (including references at
either end, adjacent references, and empty reference names) — lexing
produces exactly the ordered interleaving `piecesToks`: a `Word` per
literal stretch, a `Variable` per `$name`, a `VariableBraced` per
`${name}`, with the input after the closing quote untouched.  The lexer
consults no shell state, so this is by construction independent of any
variable's value.  A single-quoted span is one opaque literal token with no
expansion markers. -/
theorem double_quoted_interleaving :
    (∀ (pieces : List DqPiece) (rest : List Char),
      piecesOk pieces = true →
      read_double_quoted (renderPieces pieces ++ '"' :: rest)
        = (piecesToks pieces, rest))
    ∧ (∀ (s rest : List Char), '\'' ∉ s →
        read_single_quoted (s ++ '\'' :: rest) = (String.mk s, rest)) := by
  constructor
  · intro pieces rest hok
    unfold read_double_quoted
    rw [rdqGo_pieces pieces.length pieces (le_refl _) hok [] [] rest (fun _ _ _ => rfl)]
    simp [flushWord]
  · intro s rest hs
    exact read_single_quoted_terminated s rest hs

/-- Witness for `double_quoted_interleaving`: the span `$X a ${nm}$Y` — a
reference at the start, a literal, a braced reference and a reference at
the end — lexes to `[Variable X, Word " a ", VariableBraced nm,
Variable Y]` with `r` left over; `ab'c` is one single-quoted literal `ab`
with `c` left over. -/
theorem double_quoted_interleaving_witness :
    read_double_quoted (renderPieces
        [DqPiece.ref ['X'], DqPiece.lit [' ','a',' '], DqPiece.refBraced ['n','m'],
         DqPiece.ref ['Y']] ++ '"' :: ['r'])
      = (piecesToks [DqPiece.ref ['X'], DqPiece.lit [' ','a',' '],
          DqPiece.refBraced ['n','m'], DqPiece.ref ['Y']], ['r'])
    ∧ read_single_quoted (['a','b'] ++ '\'' :: ['c']) = (String.mk ['a','b'], ['c']) :=
  ⟨double_quoted_interleaving.1
      [DqPiece.ref ['X'], DqPiece.lit [' ','a',' '], DqPiece.refBraced ['n','m'],
       DqPiece.ref ['Y']] ['r'] (by decide),
   double_quoted_interleaving.2 ['a','b'] ['c'] (by decide)⟩
